import Mathlib

/-!
Verification of the MarketData bucketed ring cache.

A shallow embedding of the `MarketData` repository (an in-memory,
fixed-horizon, time-series cache for order-book snapshots) together with
proofs settling the frozen claims about it.

Embedding conventions:
* `u64` timestamps are modelled as `Nat`.  The repository's arithmetic on
  nanosecond timestamps stays far below `2^64` in every scenario the spec
  describes; overflow wrap-around is not modelled.
* `f64` spread values are modelled as `ℚ`.  The loader contract (spec §4.5,
  §7) guarantees the core only ever sees finite spreads, and every finite
  double is a rational.  The sentinel `f64::MAX` is the exact rational
  `(2^53 - 1) * 2^971`.  IEEE `±∞` are not rationals; where a claim speaks
  about `+∞` we compare against `(⊤ : EReal)` through the `ℚ → ℝ → EReal`
  coercions.
* Operations that can panic in Rust (indexing an empty deque, `.unwrap()`
  on `None`, out-of-bounds indexing) return `Option`; `none` models the
  panic.
* Per-bucket `RwLock`s, the `AtomicUsize` counter and rayon parallel
  iteration only matter for concurrency; the claims treated here are all
  sequential, so locks are erased and the atomic counter is a plain `Nat`
  field.
-/

namespace MarketData

/-- Model of `MarketDataEntry` from `src/types/mod.rs`: a validated
`(utc_epoch_ns, spread)` sample. -/
structure MarketDataEntry where
  utc_epoch_ns : Nat
  spread : ℚ
deriving DecidableEq, Repr

/-- Modelled from the spec: the rank-sketch adapter (the third-party
`tdigest` crate) is not part of `src/`.  Spec §4.1 contracts it as: `build`
over a batch of values, a `merge` that is an associative commutative union,
and `estimate_quantile` which "for a small exact sample set (a full
enumeration below ~1000) … should match linear interpolation between the
two nearest order statistics".  We model a sketch in that exact regime: it
is the multiset of its values, and quantile estimation interpolates
linearly between adjacent order statistics using the t-digest midpoint
convention (value `i` sits at cumulative weight `i + 1/2`). -/
structure TDigest where
  values : List ℚ
deriving DecidableEq, Repr

/-- Model of `TDigest::new_with_size` — the size bound is irrelevant in the exact
(small sample) regime the claims exercise. -/
def TDigest.new_with_size (_size : Nat) : TDigest := ⟨[]⟩

/-- Model of `TDigest::merge_unsorted`: absorb a batch of values. -/
def TDigest.merge_unsorted (d : TDigest) (vs : List ℚ) : TDigest :=
  ⟨d.values ++ vs⟩

/-- Model of `TDigest::merge_digests`: union of the sketches. -/
def TDigest.merge_digests (ds : List TDigest) : TDigest :=
  ⟨(ds.map TDigest.values).flatten⟩

/-- Modelled from the spec: linear interpolation between the two nearest
order statistics, with singleton value `i` (0-based, sorted) placed at
cumulative weight `i + 1/2` out of `n`.  On an empty sketch the crate
returns `NaN` (spec §4.1 "empty input produces a sketch whose quantile
queries return NaN"); `NaN` has no rational model, we return `0` there and
no claim exercises that case. -/
def TDigest.estimate_quantile (d : TDigest) (q : ℚ) : ℚ :=
  let sorted := List.insertionSort (· ≤ ·) d.values
  let n := sorted.length
  if n = 0 then 0
  else
    let t := q * n
    if t ≤ 1/2 then sorted.headD 0
    else if (n : ℚ) - 1/2 ≤ t then sorted.getLastD 0
    else
      let i := (⌊t - 1/2⌋).toNat
      sorted.getD i 0 + (t - 1/2 - (i : ℚ)) * (sorted.getD (i+1) 0 - sorted.getD i 0)

/-- The exact rational value of `f64::MAX`, the largest finite IEEE-754
double, written as a numeral so the kernel can evaluate comparisons with it
cheaply; `f64MAX_eq` checks it equals `(2^53 - 1) * 2^971`. -/
def f64MAX : ℚ :=
  179769313486231570814527423731704356798070567525844996598917476803157260780028538760589558632766878171540458953514382464234321326889464182768467546703537516986049910576551282076245490090389328944075868508455133942304583236903222948165808559332123348274797826204144723168738177180919299881250404026184124858368

/-- Model of `f64_min` from `src/utils.rs` (`min_by` over a partial order with no
`NaN` present returns the least element; on `ℚ` that is `List.min?`). -/
def f64_min (a : List ℚ) : Option ℚ := a.min?

/-- Model of `f64_max` from `src/utils.rs`. -/
def f64_max (a : List ℚ) : Option ℚ := a.max?

/-- Model of `find_bucket_index` from `src/utils.rs`.  Callers guarantee
`bucket_duration_ns > 0` (an initialized cache always has a positive
width; `new(_, 0)` can never initialize because the first insert's
`%` panics in Rust). -/
def find_bucket_index (first_bucket_start_ns query_ns bucket_duration_ns : Nat) :
    Option Nat :=
  if query_ns < first_bucket_start_ns then
    none
  else
    some ((query_ns - first_bucket_start_ns) / bucket_duration_ns)

/-- Model of `Bucket` from `src/types/mod.rs`.  The `RefCell<Option<TDigest>>` lazy
sketch cell is an `Option TDigest` field. -/
structure Bucket where
  start_time_ns : Nat
  end_time_ns : Nat
  count : Nat
  tdigest : Option TDigest
  min_spread : ℚ
  max_spread : ℚ
  entries : List MarketDataEntry
deriving DecidableEq, Repr

/-- Model of `Bucket::new`. -/
def Bucket.new (start_time_ns end_time_ns : Nat) : Bucket :=
  { start_time_ns := start_time_ns
    end_time_ns := end_time_ns
    count := 0
    tdigest := none
    min_spread := f64MAX
    max_spread := -f64MAX
    entries := [] }

/-- Model of `Bucket::insert`: returns the updated bucket and the `bool` result. -/
def Bucket.insert (b : Bucket) (e : MarketDataEntry) : Bucket × Bool :=
  if b.start_time_ns ≤ e.utc_epoch_ns ∧ e.utc_epoch_ns < b.end_time_ns then
    ({ b with
        tdigest := none
        count := b.count + 1
        min_spread := min b.min_spread e.spread
        max_spread := max b.max_spread e.spread
        entries := b.entries ++ [e] }, true)
  else
    (b, false)

/-- Model of `Bucket::remove_up_to`: returns the updated bucket and the number of
removed samples.  The source filters surviving spreads by `is_finite`
before taking min/max; on the `ℚ` model of finite doubles that filter is
the identity, so the `unwrap`s on `f64_min`/`f64_max` cannot fail when the
survivor count is positive (the `getD` defaults below are unreachable). -/
def Bucket.remove_up_to (b : Bucket) (threshold : Nat) : Bucket × Nat :=
  if threshold < b.start_time_ns ∨ b.end_time_ns < threshold then
    (b, 0)
  else
    let kept := b.entries.filter (fun e => decide (threshold < e.utc_epoch_ns))
    let spreads := kept.map MarketDataEntry.spread
    ({ b with
        entries := kept
        count := kept.length
        min_spread := if 0 < kept.length then (f64_min spreads).getD f64MAX else f64MAX
        max_spread := if 0 < kept.length then (f64_max spreads).getD (-f64MAX) else -f64MAX
        tdigest := none }, b.count - kept.length)

/-- Model of `Bucket::get_start_from`: everything in `[threshold, bucket end]`. -/
def Bucket.get_start_from (b : Bucket) (threshold : Nat) : List MarketDataEntry :=
  if b.start_time_ns ≤ threshold ∧ threshold ≤ b.end_time_ns then
    b.entries.filter (fun e => decide (threshold ≤ e.utc_epoch_ns))
  else
    []

/-- Model of `Bucket::count_start_from`. -/
def Bucket.count_start_from (b : Bucket) (threshold : Nat) : Nat :=
  (b.get_start_from threshold).length

/-- Model of `Bucket::get_end_before`: everything in `[bucket start, threshold]`. -/
def Bucket.get_end_before (b : Bucket) (threshold : Nat) : List MarketDataEntry :=
  if b.start_time_ns ≤ threshold ∧ threshold ≤ b.end_time_ns then
    b.entries.filter (fun e => decide (e.utc_epoch_ns ≤ threshold))
  else
    []

/-- Model of `Bucket::count_end_before`. -/
def Bucket.count_end_before (b : Bucket) (threshold : Nat) : Nat :=
  (b.get_end_before threshold).length

/-- Model of `Bucket::get_tdigest`: lazily build the sketch from `entries` when the
cell is empty.  The source memoizes the freshly built sketch back into the
`RefCell`; that write only caches the value returned here and is invisible
to every observable result, so the pure model omits it. -/
def Bucket.get_tdigest (b : Bucket) : TDigest :=
  match b.tdigest with
  | some d => d
  | none => (TDigest.new_with_size 100).merge_unsorted (b.entries.map MarketDataEntry.spread)

/-- Model of `MarketDataCache` from `src/types/mod.rs`.  The `VecDeque` is a list
(index 0 = front/oldest), the `AtomicUsize` counter a `Nat`. -/
structure MarketDataCache where
  buckets : List Bucket
  bucket_ns : Nat
  num_buckets : Nat
  count : Nat
deriving DecidableEq, Repr

/-- Model of `MarketDataCache::new`: remembers the parameters, materializes no
buckets. -/
def MarketDataCache.new (num_buckets : Nat) (bucket_ns : Nat) : MarketDataCache :=
  { buckets := [], bucket_ns := bucket_ns, num_buckets := num_buckets, count := 0 }

/-- The head-eviction loop of `MarketDataCache::remove_up_to`: pop whole
buckets while the front bucket's `end_time_ns ≤ time`, accumulating their
counts.  Rust reads the front bucket's end via `buckets[0]` /
`front().unwrap()`, which panics on an empty deque — modelled by `none`. -/
def popWhile (time : Nat) : List Bucket → Option (List Bucket × Nat)
  | [] => none
  | b :: rest =>
    if b.end_time_ns ≤ time then
      match popWhile time rest with
      | none => none
      | some (bs, n) => some (bs, b.count + n)
    else
      some (b :: rest, 0)

/-- The body of the tail-refill loop of `MarketDataCache::remove_up_to`:
while fewer than `n` buckets remain, append a fresh bucket starting at the
previous tail's end.  `back().unwrap()` on an empty deque panics — `none`.
Each iteration grows the list by one, so the loop runs exactly
`n - bs.length` times; `fuel` carries that count to keep the recursion
structural. -/
def refillGo (w n : Nat) : Nat → List Bucket → Option (List Bucket)
  | 0, bs => some bs
  | fuel + 1, bs =>
    if bs.length < n then
      match bs.getLast? with
      | none => none
      | some last =>
        refillGo w n fuel (bs ++ [Bucket.new last.end_time_ns (last.end_time_ns + w)])
    else
      some bs

/-- The tail-refill loop of `MarketDataCache::remove_up_to`, with its exact
iteration count as fuel. -/
def refillBuckets (w n : Nat) (bs : List Bucket) : Option (List Bucket) :=
  refillGo w n (n - bs.length) bs

/-- Model of `MarketDataCache::remove_up_to`: evict whole stale head buckets,
partially purge the new head, refill the tail to `num_buckets` buckets.
Returns the updated cache and the number of removed entries
(`original_count - count` in the source; the counter is only ever
decremented by exactly the removed amounts). -/
def MarketDataCache.remove_up_to (c : MarketDataCache) (time : Nat) :
    Option (MarketDataCache × Nat) :=
  match popWhile time c.buckets with
  | none => none
  | some (bs1, removedWhole) =>
    match bs1 with
    | [] => none
    | b :: rest =>
      let purged := b.remove_up_to time
      match refillBuckets c.bucket_ns c.num_buckets (purged.1 :: rest) with
      | none => none
      | some bs3 =>
        some ({ c with
                  buckets := bs3
                  count := c.count - removedWhole - purged.2 },
              removedWhole + purged.2)

/-- Model of `MarketDataCache::insert`.  Mirrors the source's order of effects:
first-sample initialization, the *unconditional* counter increment, the
bucket-index lookup with its silent-drop early return, the slide via
`remove_up_to` when the index runs past the ring, the recomputation of the
index, and delegation to `Bucket::insert` (whose boolean result the source
ignores).  Rust panic points (`% 0` in initialization, `buckets[0]` on an
empty deque, `.unwrap()` on `None`, out-of-bounds indexing) yield
`none`. -/
def MarketDataCache.insert (c : MarketDataCache) (data : MarketDataEntry) :
    Option MarketDataCache :=
  if c.buckets = [] ∧ c.bucket_ns = 0 then
    none
  else
    let aligned := data.utc_epoch_ns - data.utc_epoch_ns % c.bucket_ns
    let c0 :=
      if c.buckets = [] then
        { c with buckets := (List.range c.num_buckets).map (fun i =>
            Bucket.new (aligned + c.bucket_ns * i) (aligned + c.bucket_ns * (i + 1))) }
      else c
    let c1 := { c0 with count := c0.count + 1 }
    match c1.buckets with
    | [] => none
    | b0 :: _ =>
      match find_bucket_index b0.start_time_ns data.utc_epoch_ns c1.bucket_ns with
      | none => some c1
      | some idx =>
        let step : Option MarketDataCache :=
          if c1.buckets.length ≤ idx then
            (c1.remove_up_to (b0.start_time_ns + c1.bucket_ns * (idx + 1)
                - c1.num_buckets * c1.bucket_ns)).map Prod.fst
          else
            some c1
        match step with
        | none => none
        | some c2 =>
          match c2.buckets with
          | [] => none
          | b0' :: _ =>
            match find_bucket_index b0'.start_time_ns data.utc_epoch_ns c2.bucket_ns with
            | none => none
            | some idx2 =>
              match c2.buckets[idx2]? with
              | none => none
              | some bkt =>
                some { c2 with buckets := c2.buckets.set idx2 (bkt.insert data).1 }

/-- Model of `MarketDataCache::count_range`: head partial scan, interior
pre-computed counts, tail partial scan (only when the endpoint indices
differ). -/
def MarketDataCache.count_range (c : MarketDataCache) (start_time end_time : Nat) :
    Option Nat := do
  let b0 ← c.buckets[0]?
  let start_idx ← find_bucket_index b0.start_time_ns start_time c.bucket_ns
  let end_idx ← find_bucket_index b0.start_time_ns end_time c.bucket_ns
  let bs ← c.buckets[start_idx]?
  let headCnt := bs.count_start_from start_time
  let mids ← (List.range' (start_idx + 1) (end_idx - (start_idx + 1))).mapM
    (fun i => c.buckets[i]?)
  let midCnt := (mids.map Bucket.count).sum
  if start_idx = end_idx then
    pure (headCnt + midCnt)
  else do
    let be ← c.buckets[end_idx]?
    pure (headCnt + midCnt + be.count_end_before end_time)

/-- Model of `MarketDataCache::spread_percentiles`: merge the head partial sketch,
the interior buckets' lazy sketches and the tail partial sketch, then
report the 10th/50th/90th percentile estimates. -/
def MarketDataCache.spread_percentiles (c : MarketDataCache) (start_time end_time : Nat) :
    Option (ℚ × ℚ × ℚ) := do
  let b0 ← c.buckets[0]?
  let start_idx ← find_bucket_index b0.start_time_ns start_time c.bucket_ns
  let end_idx ← find_bucket_index b0.start_time_ns end_time c.bucket_ns
  let bs ← c.buckets[start_idx]?
  let headEntries := bs.get_start_from start_time
  let ds0 : List TDigest :=
    if headEntries = [] then []
    else [(TDigest.new_with_size 1000).merge_unsorted (headEntries.map MarketDataEntry.spread)]
  let mids ← (List.range' (start_idx + 1) (end_idx - (start_idx + 1))).mapM
    (fun i => c.buckets[i]?)
  let ds1 := mids.map Bucket.get_tdigest
  let ds2 ← if start_idx = end_idx then pure ([] : List TDigest)
    else do
      let be ← c.buckets[end_idx]?
      let tailEntries := be.get_end_before end_time
      pure (if tailEntries = [] then ([] : List TDigest)
        else [(TDigest.new_with_size 1000).merge_unsorted (tailEntries.map MarketDataEntry.spread)])
  let merged := TDigest.merge_digests (ds0 ++ ds1 ++ ds2)
  pure (merged.estimate_quantile (1/10),
        merged.estimate_quantile (1/2),
        merged.estimate_quantile (9/10))

/-- Model of `MarketDataCache::min_spread`: head partial minimum, interior cached
`min_spread`s (`unwrap_or(f64::MAX)` on an empty interior), tail partial
minimum. -/
def MarketDataCache.min_spread (c : MarketDataCache) (start_time end_time : Nat) :
    Option ℚ := do
  let b0 ← c.buckets[0]?
  let start_idx ← find_bucket_index b0.start_time_ns start_time c.bucket_ns
  let end_idx ← find_bucket_index b0.start_time_ns end_time c.bucket_ns
  let bs ← c.buckets[start_idx]?
  let headEntries := bs.get_start_from start_time
  let m1 : ℚ :=
    if headEntries = [] then f64MAX
    else min f64MAX (((headEntries.map MarketDataEntry.spread).min?).getD f64MAX)
  let mids ← (List.range' (start_idx + 1) (end_idx - (start_idx + 1))).mapM
    (fun i => c.buckets[i]?)
  let m2 := min m1 (((mids.map Bucket.min_spread).min?).getD f64MAX)
  if start_idx = end_idx then
    pure m2
  else do
    let be ← c.buckets[end_idx]?
    let tailEntries := be.get_end_before end_time
    pure (if tailEntries = [] then m2
      else min m2 (((tailEntries.map MarketDataEntry.spread).min?).getD m2))

/-- Model of `MarketDataCache::max_spread`: the mirror image of `min_spread` with
`-f64::MAX` as the neutral element. -/
def MarketDataCache.max_spread (c : MarketDataCache) (start_time end_time : Nat) :
    Option ℚ := do
  let b0 ← c.buckets[0]?
  let start_idx ← find_bucket_index b0.start_time_ns start_time c.bucket_ns
  let end_idx ← find_bucket_index b0.start_time_ns end_time c.bucket_ns
  let bs ← c.buckets[start_idx]?
  let headEntries := bs.get_start_from start_time
  let m1 : ℚ :=
    if headEntries = [] then -f64MAX
    else max (-f64MAX) (((headEntries.map MarketDataEntry.spread).max?).getD (-f64MAX))
  let mids ← (List.range' (start_idx + 1) (end_idx - (start_idx + 1))).mapM
    (fun i => c.buckets[i]?)
  let m2 := max m1 (((mids.map Bucket.max_spread).max?).getD (-f64MAX))
  if start_idx = end_idx then
    pure m2
  else do
    let be ← c.buckets[end_idx]?
    let tailEntries := be.get_end_before end_time
    pure (if tailEntries = [] then m2
      else max m2 (((tailEntries.map MarketDataEntry.spread).max?).getD m2))

/-! ## Auxiliary definitions used by the claim statements -/

/-- All samples currently stored in the cache, bucket by bucket. -/
def storedEntries (c : MarketDataCache) : List MarketDataEntry :=
  (c.buckets.map Bucket.entries).flatten

/-- The geometric ring invariant, as a decidable recursive predicate: bucket
`i` covers exactly `[s + w*i, s + w*(i+1))`.  Every initialized reachable
cache satisfies `layoutb c.bucket_ns s c.buckets` for the current head
start `s` (buckets are created contiguous and aligned, and eviction only
drops a prefix and extends the tail contiguously). -/
def layoutb (w : Nat) : Nat → List Bucket → Bool
  | _, [] => true
  | s, b :: rest =>
    (b.start_time_ns == s) && (b.end_time_ns == s + w) && layoutb w (s + w) rest

/-- The cache of spec §8 scenario 2/3: `new(4, 10)` after inserting the 16
samples `(ts = 5·i, spread = i)`, `i ∈ [0, 16)`, in order. -/
def demoSlide16 : Option MarketDataCache :=
  (List.range 16).foldl (fun oc i => oc.bind (fun c => c.insert ⟨5 * i, (i : ℚ)⟩))
    (some (MarketDataCache.new 4 10))

/-- The cache of spec §8 scenario 4/5: `new(10, 10)` after inserting the
100 samples `(ts = i, spread = i)`, `i ∈ [0, 100)`, in order. -/
def demoUniform100 : Option MarketDataCache :=
  (List.range 100).foldl (fun oc i => oc.bind (fun c => c.insert ⟨i, (i : ℚ)⟩))
    (some (MarketDataCache.new 10 10))

/-- A `new(4, 10)` cache initialized by a first sample at `ts = 100`
(horizon `[100, 140)`). -/
def demoHorizon100 : Option MarketDataCache :=
  (MarketDataCache.new 4 10).insert ⟨100, 1⟩

/-- A `new(4, 10)` cache holding samples at `ts = 1` and `ts = 9`, both in
bucket `[0, 10)`. -/
def demoSameBucket : Option MarketDataCache :=
  ((MarketDataCache.new 4 10).insert ⟨1, 1⟩).bind (fun c => c.insert ⟨9, 2⟩)

/-- A small initialized `new(2, 10)` cache with ring `[0, 10), [10, 20)`,
used to witness the slide theorems. -/
def slideCache : MarketDataCache :=
  { buckets := [Bucket.new 0 10, Bucket.new 10 20]
    bucket_ns := 10
    num_buckets := 2
    count := 0 }

/-- The state `slideCache` reaches after admitting `(ts = 25, spread = 2)`,
which slides the ring to `[10, 20), [20, 30)`. -/
def slidePost : MarketDataCache :=
  { buckets := [Bucket.new 10 20,
      { start_time_ns := 20
        end_time_ns := 30
        count := 1
        tdigest := none
        min_spread := 2
        max_spread := 2
        entries := [⟨25, 2⟩] }]
    bucket_ns := 10
    num_buckets := 2
    count := 1 }

/-- A bucket `[0, 10)` holding the samples `(ts = 3, spread = 5)` and
`(ts = 7, spread = 1)`. -/
def demoBucket : Bucket :=
  (((Bucket.new 0 10).insert ⟨3, 5⟩).1.insert ⟨7, 1⟩).1

/-- The cache `slideCache` passes to its bucket-insert step after the slide
triggered by `(ts = 25, spread = 2)`: the ring has moved to
`[10, 20), [20, 30)` and the counter was already incremented. -/
def slideMid : MarketDataCache :=
  { buckets := [Bucket.new 10 20, Bucket.new 20 30]
    bucket_ns := 10
    num_buckets := 2
    count := 1 }

/-- Facts about `List.min?`/`List.max?` on `ℚ` are phrased through
`Std.Antisymm`, whose `ℚ` instance Mathlib does not pre-register. -/
instance : Std.Antisymm (fun x1 x2 : ℚ => x1 ≤ x2) :=
  ⟨fun h1 h2 => le_antisymm h1 h2⟩

/-! ## Claims

Concrete traces are settled by kernel evaluation; the core `Rat`
arithmetic operations are `@[irreducible]` by default, which only hides
their definitional unfolding from the elaborator — making them
semireducible again lets `decide` evaluate them. -/

attribute [local semireducible] Rat.mul Rat.inv Rat.add Rat.sub

set_option maxRecDepth 1000000

/-- Sanity check relating the `f64MAX` numeral to its defining expression
`(2^53 - 1) * 2^971`. -/
theorem f64MAX_eq : f64MAX = (2 ^ 53 - 1) * 2 ^ 971 := by
  norm_num [f64MAX]

/-- Claim C1 (code-bug evidence).  The spec says a too-old sample is dropped
silently and "the counter does not advance", but `MarketDataCache::insert`
runs `count.fetch_add(1)` *before* the too-old check's early return.  On a
`new(4, 10)` cache whose horizon starts at 100, inserting a sample at
`ts = 50` stores nothing (still exactly one stored entry) yet `count()`
moves from 1 to 2. -/
theorem counter_advances_on_dropped_sample :
    demoHorizon100.map MarketDataCache.count = some 1 ∧
    (demoHorizon100.bind (fun c => c.insert ⟨50, 2⟩)).map MarketDataCache.count = some 2 ∧
    (demoHorizon100.bind (fun c => c.insert ⟨50, 2⟩)).map
      (fun c => (storedEntries c).length) = some 1 := by
  decide

/-- Claim C2 (code-bug evidence).  With both endpoints in the same bucket,
`count_range` only applies the head-partial predicate `ts ≥ start_time`
(`count_start_from`) and never restricts by `end_time`, contradicting its
own documentation "the number of entries in the given time range,
including both ends".  With samples at `ts = 1` and `ts = 9` in bucket
`[0, 10)`, `count_range(1, 5)` returns 2 although only one stored sample
has `1 ≤ ts ≤ 5`. -/
theorem count_range_same_bucket_ignores_end_time :
    (demoSameBucket.bind (fun c => c.count_range 1 5)) = some 2 ∧
    demoSameBucket.map
      (fun c => ((storedEntries c).filter
        (fun e => decide (1 ≤ e.utc_epoch_ns ∧ e.utc_epoch_ns ≤ 5))).length) = some 1 := by
  decide

/-- Claim C3.  Spec §8 scenario 2: from `new(4, 10)`, inserting the 16
samples `(ts = 5·i, spread = i)` leaves `count() = 7` (sliding evicted the
rest), and a subsequent `remove_up_to(60)` leaves `count() = 3`. -/
theorem sixteen_sample_slide_counts :
    demoSlide16.map MarketDataCache.count = some 7 ∧
    (demoSlide16.bind (fun c => (c.remove_up_to 60).map (fun p => p.1.count))) = some 3 := by
  decide

/-- Claim C9 (settled against the spec-modelled sketch adapter).  Spec §8 scenario 5:
from `new(10, 10)` with the 100 uniform samples `(ts = i, spread = i)`,
`spread_percentiles(0, 99)` returns exactly `(9.5, 49.5, 89.5)`, the
linear-interpolation quantile estimates for the uniform integer spreads
`0..99`. -/
theorem uniform_percentiles_exact :
    (demoUniform100.bind (fun c => c.spread_percentiles 0 99)) =
      some (19/2, 99/2, 179/2) := by
  decide

/-- Claim C4 (counterexample).  The claim says an empty bucket's
`min_spread` equals `+∞` and `max_spread` equals `-∞`; the source
initializes them to the finite doubles `f64::MAX` and `-f64::MAX`
(`Bucket::new`, confirmed by the repository's own `test_new_bucket`), and a
finite value is never `±∞`: already for the freshly constructed bucket
`[0, 10)` the claimed equalities fail. -/
theorem fresh_bucket_sentinel_not_infinite :
    ¬ ((((Bucket.new 0 10).min_spread : ℝ) : EReal) = ⊤ ∧
       (((Bucket.new 0 10).max_spread : ℝ) : EReal) = ⊥) :=
  fun h => EReal.coe_ne_top _ h.1

/-- Claim C4 (amended).  For every newly constructed bucket, and for every
bucket that an in-range `remove_up_to` leaves empty, `min_spread` equals
`f64::MAX` and `max_spread` equals `-f64::MAX` — the largest-magnitude
finite doubles, which the source uses as the empty-bucket sentinels in
place of `±∞`. -/
theorem empty_bucket_sentinels :
    (∀ s e : Nat, (Bucket.new s e).min_spread = f64MAX ∧
      (Bucket.new s e).max_spread = -f64MAX) ∧
    (∀ (b : Bucket) (t : Nat), b.start_time_ns ≤ t → t ≤ b.end_time_ns →
      (b.remove_up_to t).1.count = 0 →
      (b.remove_up_to t).1.min_spread = f64MAX ∧
      (b.remove_up_to t).1.max_spread = -f64MAX) := by
  refine ⟨fun s e => ⟨rfl, rfl⟩, fun b t h1 h2 h3 => ?_⟩
  simp only [Bucket.remove_up_to,
    if_neg (by omega : ¬(t < b.start_time_ns ∨ b.end_time_ns < t))] at h3 ⊢
  rw [if_neg (by omega), if_neg (by omega)]
  exact ⟨rfl, rfl⟩

/-- Witness for the amended C4: purging `demoBucket` up to `t = 9` (in
range, removing every sample) resets both extrema to the sentinels. -/
theorem empty_bucket_sentinels_witness :
    (demoBucket.remove_up_to 9).1.count = 0 ∧
    (demoBucket.remove_up_to 9).1.min_spread = f64MAX ∧
    (demoBucket.remove_up_to 9).1.max_spread = -f64MAX :=
  ⟨by decide,
    (empty_bucket_sentinels.2 demoBucket 9 (by decide) (by decide) (by decide)).1,
    (empty_bucket_sentinels.2 demoBucket 9 (by decide) (by decide) (by decide)).2⟩

/-- Helper: what `f64_min` returns on a non-empty list is a member that is
a lower bound. -/
theorem rat_min_spec {l : List ℚ} {a : ℚ} (h : f64_min l = some a) :
    a ∈ l ∧ ∀ b ∈ l, a ≤ b := by
  rw [f64_min, List.min?_eq_some_iff] at h
  · exact h
  · exact fun x => le_refl x
  · exact fun a b => min_choice a b
  · exact fun a b c => le_min_iff

/-- Helper: what `f64_max` returns on a non-empty list is a member that is
an upper bound. -/
theorem rat_max_spec {l : List ℚ} {a : ℚ} (h : f64_max l = some a) :
    a ∈ l ∧ ∀ b ∈ l, b ≤ a := by
  rw [f64_max, List.max?_eq_some_iff] at h
  · exact h
  · exact fun x => le_refl x
  · exact fun a b => max_choice a b
  · exact fun a b c => max_le_iff

/-- Claim C7.  `Bucket::remove_up_to(threshold)` is a no-op returning 0
when the threshold lies outside `[start_ns, end_ns]`; otherwise it retains
exactly the samples with `ts > threshold` (strict), sets `count` to the
number of survivors, recomputes `min_spread`/`max_spread` from the
survivors (sentinels when none survive; all modelled spreads are finite),
invalidates the sketch, leaves the interval fixed, and — whenever the
bucket satisfied its `count = |entries|` invariant — returns the number of
removed samples. -/
theorem bucket_remove_up_to_contract (b : Bucket) (t : Nat) :
    ((t < b.start_time_ns ∨ b.end_time_ns < t) → b.remove_up_to t = (b, 0)) ∧
    (b.start_time_ns ≤ t → t ≤ b.end_time_ns →
      (b.remove_up_to t).1.entries =
        b.entries.filter (fun e => decide (t < e.utc_epoch_ns)) ∧
      (b.remove_up_to t).1.count = (b.remove_up_to t).1.entries.length ∧
      (b.remove_up_to t).1.tdigest = none ∧
      (b.remove_up_to t).1.start_time_ns = b.start_time_ns ∧
      (b.remove_up_to t).1.end_time_ns = b.end_time_ns ∧
      ((b.remove_up_to t).1.count = 0 →
        (b.remove_up_to t).1.min_spread = f64MAX ∧
        (b.remove_up_to t).1.max_spread = -f64MAX) ∧
      (0 < (b.remove_up_to t).1.count →
        ((b.remove_up_to t).1.min_spread ∈
            (b.remove_up_to t).1.entries.map MarketDataEntry.spread ∧
          ∀ q ∈ (b.remove_up_to t).1.entries.map MarketDataEntry.spread,
            (b.remove_up_to t).1.min_spread ≤ q) ∧
        ((b.remove_up_to t).1.max_spread ∈
            (b.remove_up_to t).1.entries.map MarketDataEntry.spread ∧
          ∀ q ∈ (b.remove_up_to t).1.entries.map MarketDataEntry.spread,
            q ≤ (b.remove_up_to t).1.max_spread)) ∧
      (b.count = b.entries.length →
        (b.remove_up_to t).2 = b.entries.length - (b.remove_up_to t).1.entries.length)) := by
  constructor
  · intro h
    simp only [Bucket.remove_up_to, if_pos h]
  · intro h1 h2
    simp only [Bucket.remove_up_to,
      if_neg (by omega : ¬(t < b.start_time_ns ∨ b.end_time_ns < t))]
    refine ⟨trivial, trivial, trivial, trivial, trivial, ?_, ?_, ?_⟩
    · intro h3
      rw [if_neg (by omega), if_neg (by omega)]
      exact ⟨rfl, rfl⟩
    · intro h3
      rw [if_pos h3, if_pos h3]
      have hne : (b.entries.filter (fun e => decide (t < e.utc_epoch_ns))).map
          MarketDataEntry.spread ≠ [] := by
        intro hc
        rw [List.map_eq_nil_iff] at hc
        simp [hc] at h3
      cases hmn : f64_min ((b.entries.filter (fun e => decide (t < e.utc_epoch_ns))).map
          MarketDataEntry.spread) with
      | none =>
        exact absurd (List.min?_eq_none_iff.mp hmn) hne
      | some m =>
        cases hmx : f64_max ((b.entries.filter (fun e => decide (t < e.utc_epoch_ns))).map
            MarketDataEntry.spread) with
        | none =>
          exact absurd (List.max?_eq_none_iff.mp hmx) hne
        | some m2 =>
          simp only [Option.getD_some]
          exact ⟨rat_min_spec hmn, rat_max_spec hmx⟩
    · intro h3
      rw [h3]

/-- Witness for C7 at `demoBucket`, `threshold = 5`: the purge keeps
exactly the sample at `ts = 7` and invalidates the sketch. -/
theorem bucket_remove_up_to_contract_witness :
    demoBucket.start_time_ns ≤ 5 ∧ 5 ≤ demoBucket.end_time_ns ∧
    (demoBucket.remove_up_to 5).1.entries =
      demoBucket.entries.filter (fun e => decide (5 < e.utc_epoch_ns)) ∧
    (demoBucket.remove_up_to 5).1.tdigest = none :=
  ⟨by decide, by decide,
    ((bucket_remove_up_to_contract demoBucket 5).2 (by decide) (by decide)).1,
    ((bucket_remove_up_to_contract demoBucket 5).2 (by decide) (by decide)).2.2.1⟩

/-- Claim C8.  `Bucket::insert` returns `true` exactly when
`start_ns ≤ ts < end_ns`; on acceptance it appends the sample, increments
`count`, folds the spread into the extrema and invalidates the sketch; on
rejection the bucket is returned unchanged. -/
theorem bucket_insert_contract (b : Bucket) (e : MarketDataEntry) :
    ((b.insert e).2 = true ↔
      (b.start_time_ns ≤ e.utc_epoch_ns ∧ e.utc_epoch_ns < b.end_time_ns)) ∧
    (b.start_time_ns ≤ e.utc_epoch_ns → e.utc_epoch_ns < b.end_time_ns →
      (b.insert e).1 = { b with
        tdigest := none
        count := b.count + 1
        min_spread := min b.min_spread e.spread
        max_spread := max b.max_spread e.spread
        entries := b.entries ++ [e] }) ∧
    ((b.insert e).2 = false → (b.insert e).1 = b) := by
  unfold Bucket.insert
  split
  · rename_i h
    exact ⟨by simp [h], fun _ _ => rfl, by simp⟩
  · rename_i h
    exact ⟨by simp [h], fun ha hb => absurd ⟨ha, hb⟩ h, fun _ => rfl⟩

/-- Witness for C8: inserting `(ts = 3, spread = 5)` into the fresh bucket
`[0, 10)` performs exactly the accepted-sample state update. -/
theorem bucket_insert_contract_witness :
    ((Bucket.new 0 10).insert ⟨3, 5⟩).1 = { (Bucket.new 0 10) with
        tdigest := none
        count := 1
        min_spread := min (Bucket.new 0 10).min_spread 5
        max_spread := max (Bucket.new 0 10).max_spread 5
        entries := [⟨3, 5⟩] } :=
  (bucket_insert_contract (Bucket.new 0 10) ⟨3, 5⟩).2.1 (by decide) (by decide)

/-- Claim C10 (implicit).  A freshly constructed cache has no buckets, and
every public operation other than `insert` and `count` unconditionally
reads `buckets[0]` and therefore panics (`none`); `count` returns 0 and
`insert` (for positive parameters) succeeds by initializing the ring. -/
theorem fresh_cache_behaviour (n w s e t : Nat) (d : MarketDataEntry) :
    (MarketDataCache.new n w).buckets = [] ∧
    (MarketDataCache.new n w).remove_up_to t = none ∧
    (MarketDataCache.new n w).count_range s e = none ∧
    (MarketDataCache.new n w).min_spread s e = none ∧
    (MarketDataCache.new n w).max_spread s e = none ∧
    (MarketDataCache.new n w).spread_percentiles s e = none ∧
    (MarketDataCache.new n w).count = 0 ∧
    (0 < n → 0 < w → ((MarketDataCache.new n w).insert d).isSome = true) := by
  refine ⟨rfl, rfl, rfl, rfl, rfl, rfl, rfl, ?_⟩
  intro hn hw
  obtain ⟨m, rfl⟩ : ∃ m, n = m + 1 := ⟨n - 1, by omega⟩
  have halign : d.utc_epoch_ns - d.utc_epoch_ns % w ≤ d.utc_epoch_ns := Nat.sub_le _ _
  simp only [MarketDataCache.insert, MarketDataCache.new]
  rw [if_neg (by simp; omega)]
  simp only [List.range_succ_eq_map, List.map_cons]
  simp only [if_true, List.map_cons]
  simp only [Bucket.new, Nat.mul_zero, Nat.add_zero]
  simp only [find_bucket_index]
  rw [if_neg (by omega)]
  simp only [Nat.sub_sub_self (Nat.mod_le _ _), Nat.div_eq_of_lt (Nat.mod_lt _ hw)]
  rw [if_neg (by simp)]
  have hcond : ¬ (d.utc_epoch_ns < d.utc_epoch_ns - d.utc_epoch_ns % w) := by omega
  simp [hcond, Nat.sub_sub_self (Nat.mod_le _ _), Nat.div_eq_of_lt (Nat.mod_lt _ hw)]

/-- Witness for C10's `insert` clause at `new(1, 10)` and a sample at
`ts = 5`. -/
theorem fresh_cache_behaviour_witness :
    (0 : Nat) < 1 ∧ (0 : Nat) < 10 ∧
    ((MarketDataCache.new 1 10).insert ⟨5, 1⟩).isSome = true :=
  ⟨by decide, by decide,
    (fresh_cache_behaviour 1 10 0 0 0 ⟨5, 1⟩).2.2.2.2.2.2.2 (by decide) (by decide)⟩

/-! ## Ring-layout lemmas and the slide claims -/

theorem layoutb_cons {w s : Nat} {b : Bucket} {rest : List Bucket} :
    layoutb w s (b :: rest) = true ↔
      b.start_time_ns = s ∧ b.end_time_ns = s + w ∧ layoutb w (s + w) rest = true := by
  simp [layoutb, Bool.and_assoc]

theorem layoutb_get {w : Nat} :
    ∀ {bs : List Bucket} {s : Nat}, layoutb w s bs = true →
      ∀ i (h : i < bs.length),
        (bs.get ⟨i, h⟩).start_time_ns = s + w * i ∧
        (bs.get ⟨i, h⟩).end_time_ns = s + w * (i + 1) := by
  intro bs
  induction bs with
  | nil =>
    intro s _ i h
    simp at h
  | cons b rest ih =>
    intro s hl i h
    rcases layoutb_cons.mp hl with ⟨h1, h2, h3⟩
    cases i with
    | zero =>
      simp [h1, h2]
    | succ j =>
      have hj := ih h3 j (by simpa using h)
      have hm1 : w * (j + 1) = w * j + w := Nat.mul_succ w j
      have hm2 : w * (j + 1 + 1) = w * (j + 1) + w := Nat.mul_succ w (j + 1)
      constructor
      · have := hj.1
        simp only [List.get_cons_succ] at this ⊢
        omega
      · have := hj.2
        simp only [List.get_cons_succ] at this ⊢
        omega

theorem layoutb_replace_head {w s : Nat} {b b2 : Bucket} {rest : List Bucket}
    (h : layoutb w s (b :: rest) = true)
    (hs : b2.start_time_ns = b.start_time_ns)
    (he : b2.end_time_ns = b.end_time_ns) :
    layoutb w s (b2 :: rest) = true := by
  rcases layoutb_cons.mp h with ⟨h1, h2, h3⟩
  exact layoutb_cons.mpr ⟨hs.trans h1, he.trans h2, h3⟩

theorem layoutb_set {w : Nat} :
    ∀ {bs : List Bucket} {s i : Nat} {b2 : Bucket}, layoutb w s bs = true →
      ∀ (h : i < bs.length),
      b2.start_time_ns = (bs.get ⟨i, h⟩).start_time_ns →
      b2.end_time_ns = (bs.get ⟨i, h⟩).end_time_ns →
      layoutb w s (bs.set i b2) = true := by
  intro bs
  induction bs with
  | nil =>
    intro s i b2 _ h
    simp at h
  | cons b rest ih =>
    intro s i b2 hl h hs he
    rcases layoutb_cons.mp hl with ⟨h1, h2, h3⟩
    cases i with
    | zero =>
      simp only [List.set]
      exact layoutb_cons.mpr ⟨hs.trans h1, he.trans h2, h3⟩
    | succ j =>
      simp only [List.set]
      refine layoutb_cons.mpr ⟨h1, h2, ?_⟩
      exact ih h3 (by simpa using h) (by simpa using hs) (by simpa using he)

theorem layoutb_getLast {w : Nat} :
    ∀ {bs : List Bucket} {s : Nat}, layoutb w s bs = true → bs ≠ [] →
      ∃ last, bs.getLast? = some last ∧
        last.end_time_ns = s + w * bs.length := by
  intro bs
  induction bs with
  | nil =>
    intro s _ h
    exact absurd rfl h
  | cons b rest ih =>
    intro s hl _
    rcases layoutb_cons.mp hl with ⟨h1, h2, h3⟩
    cases rest with
    | nil =>
      exact ⟨b, rfl, by simpa using h2⟩
    | cons b2 rest2 =>
      obtain ⟨last, hlast, hend⟩ := ih h3 (by simp)
      refine ⟨last, by rwa [List.getLast?_cons_cons], ?_⟩
      have hm : w * (rest2.length + 1 + 1) = w * (rest2.length + 1) + w :=
        Nat.mul_succ w (rest2.length + 1)
      simp only [List.length_cons] at hend ⊢
      omega

theorem layoutb_append_one {w : Nat} :
    ∀ {bs : List Bucket} {s : Nat}, layoutb w s bs = true →
      layoutb w s
        (bs ++ [Bucket.new (s + w * bs.length) (s + w * bs.length + w)]) = true := by
  intro bs
  induction bs with
  | nil =>
    intro s _
    simp [layoutb, Bucket.new]
  | cons b rest ih =>
    intro s hl
    rcases layoutb_cons.mp hl with ⟨h1, h2, h3⟩
    have := ih h3
    refine layoutb_cons.mpr ⟨h1, h2, ?_⟩
    have hm : w * (rest.length + 1) = w * rest.length + w := Nat.mul_succ w rest.length
    have heq : s + w * (rest.length + 1) = s + w + w * rest.length := by omega
    simpa [List.length_cons, heq] using this

theorem bucket_remove_up_to_fields (b : Bucket) (t : Nat) :
    (b.remove_up_to t).1.start_time_ns = b.start_time_ns ∧
    (b.remove_up_to t).1.end_time_ns = b.end_time_ns := by
  unfold Bucket.remove_up_to
  split
  · exact ⟨rfl, rfl⟩
  · exact ⟨rfl, rfl⟩

theorem bucket_insert_fields (b : Bucket) (e : MarketDataEntry) :
    (b.insert e).1.start_time_ns = b.start_time_ns ∧
    (b.insert e).1.end_time_ns = b.end_time_ns := by
  unfold Bucket.insert
  split
  · exact ⟨rfl, rfl⟩
  · exact ⟨rfl, rfl⟩

theorem popWhile_layout {w t : Nat} :
    ∀ {bs : List Bucket} {s : Nat} {bs2 : List Bucket} {n : Nat},
      layoutb w s bs = true → popWhile t bs = some (bs2, n) →
      ∃ k, k < bs.length ∧ bs2 = bs.drop k ∧
        layoutb w (s + w * k) bs2 = true ∧
        (∀ j, j < k → s + w * (j + 1) ≤ t) ∧ t < s + w * (k + 1) := by
  intro bs
  induction bs with
  | nil =>
    intro s bs2 n _ hp
    simp [popWhile] at hp
  | cons b rest ih =>
    intro s bs2 n hl hp
    rcases layoutb_cons.mp hl with ⟨h1, h2, h3⟩
    rw [popWhile] at hp
    by_cases hcond : b.end_time_ns ≤ t
    · rw [if_pos hcond] at hp
      cases hrec : popWhile t rest with
      | none =>
        rw [hrec] at hp
        exact absurd hp (by simp)
      | some p =>
        obtain ⟨bs3, m⟩ := p
        rw [hrec] at hp
        have hbs : bs3 = bs2 := by
          have := Option.some.inj hp
          exact congrArg Prod.fst this
        subst hbs
        obtain ⟨k, hk, hdrop, hlay, hlb, hub⟩ := ih h3 hrec
        have hm1 : w * (k + 1) = w * k + w := Nat.mul_succ w k
        have hm2 : w * (k + 1 + 1) = w * (k + 1) + w := Nat.mul_succ w (k + 1)
        refine ⟨k + 1, by simp; omega, by simpa using hdrop, ?_, ?_, by omega⟩
        · have heq : s + w * (k + 1) = s + w + w * k := by omega
          rw [heq]
          exact hlay
        · intro j hj
          cases j with
          | zero =>
            have : b.end_time_ns = s + w := h2
            simpa [Nat.mul_one] using hcond.trans_eq' (by omega)
          | succ i =>
            have hlb2 := hlb i (by omega)
            have hm3 : w * (i + 1 + 1) = w * (i + 1) + w := Nat.mul_succ w (i + 1)
            omega
    · rw [if_neg hcond] at hp
      have h0 := Option.some.inj hp
      have hbs : bs2 = b :: rest := (congrArg Prod.fst h0).symm
      refine ⟨0, by simp, by simpa using hbs.symm ▸ rfl, ?_, by omega, ?_⟩
      · simpa [Nat.mul_zero] using hbs ▸ hl
      · have : w * (0 + 1) = w := by omega
        omega

theorem refillGo_layout {w n : Nat} :
    ∀ (fuel : Nat) {bs : List Bucket} {s : Nat},
      layoutb w s bs = true → bs ≠ [] → bs.length + fuel = n →
      ∃ bs2, refillGo w n fuel bs = some bs2 ∧ layoutb w s bs2 = true ∧
        bs2.length = n ∧ bs2 ≠ [] := by
  intro fuel
  induction fuel with
  | zero =>
    intro bs s hl hne hflen
    exact ⟨bs, rfl, hl, by omega, hne⟩
  | succ f ih =>
    intro bs s hl hne hflen
    obtain ⟨last, hlast, hend⟩ := layoutb_getLast hl hne
    have happ := layoutb_append_one hl
    rw [refillGo, if_pos (by omega), hlast]
    obtain ⟨bs2, hgo, hl2, hlen2, hne2⟩ :=
      @ih (bs ++ [Bucket.new last.end_time_ns (last.end_time_ns + w)])
        s (by rw [hend]; exact happ) (by simp) (by simp; omega)
    exact ⟨bs2, hgo, hl2, hlen2, hne2⟩

theorem refillBuckets_layout {w n : Nat} {bs : List Bucket} {s : Nat}
    (hl : layoutb w s bs = true) (hne : bs ≠ []) (hlen : bs.length ≤ n) :
    ∃ bs2, refillBuckets w n bs = some bs2 ∧ layoutb w s bs2 = true ∧
      bs2.length = n ∧ bs2 ≠ [] :=
  refillGo_layout (n - bs.length) hl hne (by omega)

theorem remove_up_to_layout {c : MarketDataCache} {s t : Nat}
    {c2 : MarketDataCache} {r : Nat}
    (hl : layoutb c.bucket_ns s c.buckets = true)
    (hlen : c.buckets.length = c.num_buckets)
    (hrm : c.remove_up_to t = some (c2, r)) :
    ∃ k, k < c.num_buckets ∧
      layoutb c.bucket_ns (s + c.bucket_ns * k) c2.buckets = true ∧
      c2.buckets.length = c.num_buckets ∧
      c2.bucket_ns = c.bucket_ns ∧ c2.num_buckets = c.num_buckets ∧
      (∀ j, j < k → s + c.bucket_ns * (j + 1) ≤ t) ∧
      t < s + c.bucket_ns * (k + 1) := by
  unfold MarketDataCache.remove_up_to at hrm
  cases hpw : popWhile t c.buckets with
  | none =>
    rw [hpw] at hrm
    exact absurd hrm (by simp)
  | some p =>
    obtain ⟨bs1, rmw⟩ := p
    rw [hpw] at hrm
    obtain ⟨k, hk, hdrop, hlay1, hlb, hub⟩ := popWhile_layout hl hpw
    cases hbs1 : bs1 with
    | nil =>
      rw [hbs1] at hrm
      exact absurd hrm (by simp)
    | cons b rest =>
      rw [hbs1] at hrm hlay1
      dsimp only [] at hrm
      have hflds := bucket_remove_up_to_fields b t
      have hlay2 : layoutb c.bucket_ns (s + c.bucket_ns * k)
          ((b.remove_up_to t).1 :: rest) = true :=
        layoutb_replace_head hlay1 hflds.1 hflds.2
      have hlen1 : (b :: rest).length = c.buckets.length - k := by
        rw [← hbs1, hdrop, List.length_drop]
      have hlen2 : ((b.remove_up_to t).1 :: rest).length ≤ c.num_buckets := by
        simp only [List.length_cons] at hlen1 ⊢
        omega
      obtain ⟨bs3, hrefill, hlay3, hlen3, _⟩ :=
        refillBuckets_layout hlay2 (by simp) hlen2
      rw [hrefill] at hrm
      have hc2 := Option.some.inj hrm
      have hc2a : c2 = { c with
          buckets := bs3
          count := c.count - rmw - (b.remove_up_to t).2 } :=
        (congrArg Prod.fst hc2).symm
      subst hc2a
      exact ⟨k, by omega, hlay3, hlen3, rfl, rfl, hlb, hub⟩

theorem slide_recompute {c : MarketDataCache} {s u idx : Nat}
    {c2 : MarketDataCache} {r : Nat}
    (hW : 0 < c.bucket_ns)
    (hN : 0 < c.num_buckets)
    (hlen : c.buckets.length = c.num_buckets)
    (hl : layoutb c.bucket_ns s c.buckets = true)
    (hfind : find_bucket_index s u c.bucket_ns = some idx)
    (hslide : c.buckets.length ≤ idx)
    (hrm : c.remove_up_to (s + c.bucket_ns * (idx + 1) - c.num_buckets * c.bucket_ns)
      = some (c2, r)) :
    ∃ k, k + c.num_buckets = idx + 1 ∧
      layoutb c.bucket_ns (s + c.bucket_ns * k) c2.buckets = true ∧
      c2.buckets.length = c.num_buckets ∧
      c2.bucket_ns = c.bucket_ns ∧ c2.num_buckets = c.num_buckets ∧
      find_bucket_index (s + c.bucket_ns * k) u c.bucket_ns
        = some (c.num_buckets - 1) := by
  have hus : s ≤ u := by
    by_contra hc
    rw [find_bucket_index, if_pos (by omega)] at hfind
    exact absurd hfind (by simp)
  have hidx : (u - s) / c.bucket_ns = idx := by
    rw [find_bucket_index, if_neg (by omega)] at hfind
    exact Option.some.inj hfind
  have hdm := Nat.div_add_mod (u - s) c.bucket_ns
  rw [hidx] at hdm
  have hr : (u - s) % c.bucket_ns < c.bucket_ns := Nat.mod_lt _ hW
  have hNi : c.num_buckets ≤ idx := by omega
  have hmulNle : c.num_buckets * c.bucket_ns ≤ c.bucket_ns * (idx + 1) := by
    calc c.num_buckets * c.bucket_ns = c.bucket_ns * c.num_buckets := Nat.mul_comm _ _
      _ ≤ c.bucket_ns * (idx + 1) := Nat.mul_le_mul_left _ (by omega)
  have hth : s + c.bucket_ns * (idx + 1) - c.num_buckets * c.bucket_ns
      + c.num_buckets * c.bucket_ns = s + c.bucket_ns * (idx + 1) :=
    Nat.sub_add_cancel (by omega)
  obtain ⟨k, hk, hlay, hlen2, hns, hnum, hlb, hub⟩ := remove_up_to_layout hl hlen hrm
  -- k + N = idx + 1
  have hmulsum : c.bucket_ns * (k + 1) + c.bucket_ns * c.num_buckets
      = c.bucket_ns * (k + 1 + c.num_buckets) := (Nat.mul_add _ _ _).symm
  have hupper : idx + 1 < k + 1 + c.num_buckets := by
    have h1 : s + c.bucket_ns * (idx + 1)
        < s + c.bucket_ns * (k + 1) + c.num_buckets * c.bucket_ns := by omega
    have h2 : c.bucket_ns * (idx + 1) < c.bucket_ns * (k + 1 + c.num_buckets) := by
      have h3 : c.num_buckets * c.bucket_ns = c.bucket_ns * c.num_buckets :=
        Nat.mul_comm _ _
      omega
    exact Nat.lt_of_mul_lt_mul_left h2
  have hkpos : 0 < k := by
    by_contra hc
    have hk0 : k = 0 := by omega
    rw [hk0] at hub
    have h1 : s + c.bucket_ns * (idx + 1)
        < s + c.bucket_ns * 1 + c.num_buckets * c.bucket_ns := by omega
    have h2 : c.bucket_ns * (idx + 1) < c.bucket_ns * (1 + c.num_buckets) := by
      have h3 : c.num_buckets * c.bucket_ns = c.bucket_ns * c.num_buckets :=
        Nat.mul_comm _ _
      have h4 : c.bucket_ns * (1 + c.num_buckets)
          = c.bucket_ns * 1 + c.bucket_ns * c.num_buckets := Nat.mul_add _ _ _
      omega
    have := Nat.lt_of_mul_lt_mul_left h2
    omega
  have hlower : k + c.num_buckets ≤ idx + 1 := by
    have hlbk := hlb (k - 1) (by omega)
    have hkk : k - 1 + 1 = k := by omega
    rw [hkk] at hlbk
    have h1 : s + c.bucket_ns * k + c.num_buckets * c.bucket_ns
        ≤ s + c.bucket_ns * (idx + 1) := by omega
    have h2 : c.bucket_ns * (k + c.num_buckets) ≤ c.bucket_ns * (idx + 1) := by
      have h3 : c.num_buckets * c.bucket_ns = c.bucket_ns * c.num_buckets :=
        Nat.mul_comm _ _
      have h4 : c.bucket_ns * (k + c.num_buckets)
          = c.bucket_ns * k + c.bucket_ns * c.num_buckets := Nat.mul_add _ _ _
      omega
    exact Nat.le_of_mul_le_mul_left h2 hW
  have hkN : k + c.num_buckets = idx + 1 := by omega
  refine ⟨k, hkN, hlay, hlen2, hns, hnum, ?_⟩
  -- recomputed index
  have hkle : k ≤ idx := by omega
  have hmulk : c.bucket_ns * k ≤ c.bucket_ns * idx := Nat.mul_le_mul_left _ hkle
  have hs1u : s + c.bucket_ns * k ≤ u := by omega
  rw [find_bucket_index, if_neg (by omega)]
  have hidx2 : idx = k + (c.num_buckets - 1) := by omega
  have hmulsplit : c.bucket_ns * idx
      = c.bucket_ns * k + c.bucket_ns * (c.num_buckets - 1) := by
    rw [hidx2, Nat.mul_add]
  have hdiff : u - (s + c.bucket_ns * k)
      = (u - s) % c.bucket_ns + c.bucket_ns * (c.num_buckets - 1) := by omega
  rw [hdiff, Nat.add_mul_div_left _ _ hW, Nat.div_eq_of_lt hr]
  simp

theorem insert_slide_eq {c : MarketDataCache} {d : MarketDataEntry} {s idx : Nat}
    {c2 : MarketDataCache} {r : Nat}
    (hW : 0 < c.bucket_ns)
    (hN : 0 < c.num_buckets)
    (hlen : c.buckets.length = c.num_buckets)
    (hl : layoutb c.bucket_ns s c.buckets = true)
    (hfind : find_bucket_index s d.utc_epoch_ns c.bucket_ns = some idx)
    (hslide : c.buckets.length ≤ idx)
    (hrm : MarketDataCache.remove_up_to { c with count := c.count + 1 }
        (s + c.bucket_ns * (idx + 1) - c.num_buckets * c.bucket_ns) = some (c2, r)) :
    ∃ bkt, c2.buckets[c.num_buckets - 1]? = some bkt ∧
      c.insert d = some { c2 with
        buckets := c2.buckets.set (c.num_buckets - 1) (bkt.insert d).1 } := by
  have hne : ¬ c.buckets = [] := by
    intro h
    rw [h] at hlen
    simp at hlen
    omega
  obtain ⟨b0, rest, hbs⟩ : ∃ b0 rest, c.buckets = b0 :: rest := by
    cases hb : c.buckets with
    | nil => exact absurd hb hne
    | cons x xs => exact ⟨x, xs, rfl⟩
  have hb0 : b0.start_time_ns = s := by
    have h2 := hl
    rw [hbs] at h2
    exact (layoutb_cons.mp h2).1
  obtain ⟨k, hkN, hlay, hlen2, hns, hnum, hfind2⟩ :=
    slide_recompute (c := { c with count := c.count + 1 })
      hW hN hlen hl hfind hslide hrm
  dsimp only [] at hkN hlay hlen2 hns hnum hfind2
  obtain ⟨b02, rest2, hbs2⟩ : ∃ b02 rest2, c2.buckets = b02 :: rest2 := by
    cases hb : c2.buckets with
    | nil =>
      rw [hb] at hlen2
      simp at hlen2
      omega
    | cons x xs => exact ⟨x, xs, rfl⟩
  have hb02 : b02.start_time_ns = c.bucket_ns * k + s := by
    have h2 := hlay
    rw [hbs2] at h2
    have := (layoutb_cons.mp h2).1
    omega
  have hlt : c.num_buckets - 1 < c2.buckets.length := by omega
  refine ⟨c2.buckets[c.num_buckets - 1], List.getElem?_eq_getElem hlt, ?_⟩
  have hcond1 : ¬ (c.buckets = [] ∧ c.bucket_ns = 0) := fun h => hne h.1
  rw [MarketDataCache.insert, if_neg hcond1]
  simp only [if_neg hne]
  rw [hbs]
  dsimp only []
  rw [hb0, hfind]
  dsimp only []
  have hsl2 : (b0 :: rest).length ≤ idx := by
    rw [← hbs]
    exact hslide
  rw [if_pos hsl2]
  rw [hbs] at hrm
  rw [hrm]
  simp only [Option.map_some']
  conv_lhs => rw [hbs2]
  dsimp only []
  rw [hb02]
  have hfind3 : find_bucket_index (c.bucket_ns * k + s) d.utc_epoch_ns c.bucket_ns
      = some (c.num_buckets - 1) := by
    rw [← hfind2]
    congr 1
    omega
  rw [hns, hfind3]
  conv_lhs => rw [← hbs2]
  dsimp only []
  rw [List.getElem?_eq_getElem hlt]

theorem insert_slide_none {c : MarketDataCache} {d : MarketDataEntry} {s idx : Nat}
    (hN : 0 < c.num_buckets)
    (hlen : c.buckets.length = c.num_buckets)
    (hl : layoutb c.bucket_ns s c.buckets = true)
    (hfind : find_bucket_index s d.utc_epoch_ns c.bucket_ns = some idx)
    (hslide : c.buckets.length ≤ idx)
    (hrm : MarketDataCache.remove_up_to { c with count := c.count + 1 }
        (s + c.bucket_ns * (idx + 1) - c.num_buckets * c.bucket_ns) = none) :
    c.insert d = none := by
  have hne : ¬ c.buckets = [] := by
    intro h
    rw [h] at hlen
    simp at hlen
    omega
  obtain ⟨b0, rest, hbs⟩ : ∃ b0 rest, c.buckets = b0 :: rest := by
    cases hb : c.buckets with
    | nil => exact absurd hb hne
    | cons x xs => exact ⟨x, xs, rfl⟩
  have hb0 : b0.start_time_ns = s := by
    have h2 := hl
    rw [hbs] at h2
    exact (layoutb_cons.mp h2).1
  have hcond1 : ¬ (c.buckets = [] ∧ c.bucket_ns = 0) := fun h => hne h.1
  rw [MarketDataCache.insert, if_neg hcond1]
  simp only [if_neg hne]
  rw [hbs]
  dsimp only []
  rw [hb0, hfind]
  dsimp only []
  have hsl2 : (b0 :: rest).length ≤ idx := by
    rw [← hbs]
    exact hslide
  rw [if_pos hsl2]
  rw [hbs] at hrm
  rw [hrm]
  rfl

/-- Claim C6.  On an insert whose sample maps past the current ring
(`idx ≥ N`), once the triggered cache-level `remove_up_to` completes, the
recomputed bucket index for that sample is strictly below the ring length,
so the subsequent `unwrap` and indexing (and the delegation to
`Bucket::insert`) cannot fail.  Hypotheses are the structural facts every
initialized reachable cache satisfies: a contiguous ring layout, `N`
buckets, and positive parameters. -/
theorem slide_recomputed_index_safe (c : MarketDataCache) (d : MarketDataEntry)
    (s idx : Nat) (c2 : MarketDataCache) (r : Nat)
    (hW : 0 < c.bucket_ns)
    (hN : 0 < c.num_buckets)
    (hlen : c.buckets.length = c.num_buckets)
    (hl : layoutb c.bucket_ns s c.buckets = true)
    (hfind : find_bucket_index s d.utc_epoch_ns c.bucket_ns = some idx)
    (hslide : c.buckets.length ≤ idx)
    (hrm : MarketDataCache.remove_up_to { c with count := c.count + 1 }
        (s + c.bucket_ns * (idx + 1) - c.num_buckets * c.bucket_ns) = some (c2, r)) :
    ∃ b0 rest idx2, c2.buckets = b0 :: rest ∧
      find_bucket_index b0.start_time_ns d.utc_epoch_ns c2.bucket_ns = some idx2 ∧
      idx2 < c2.buckets.length ∧
      (c.insert d).isSome = true := by
  obtain ⟨k, hkN, hlay, hlen2, hns, hnum, hfind2⟩ :=
    slide_recompute (c := { c with count := c.count + 1 })
      hW hN hlen hl hfind hslide hrm
  dsimp only [] at hkN hlay hlen2 hns hnum hfind2
  obtain ⟨b02, rest2, hbs2⟩ : ∃ b02 rest2, c2.buckets = b02 :: rest2 := by
    cases hb : c2.buckets with
    | nil =>
      rw [hb] at hlen2
      simp at hlen2
      omega
    | cons x xs => exact ⟨x, xs, rfl⟩
  have hb02 : b02.start_time_ns = s + c.bucket_ns * k := by
    have h2 := hlay
    rw [hbs2] at h2
    exact (layoutb_cons.mp h2).1
  obtain ⟨bkt, hbkt, heq⟩ := insert_slide_eq hW hN hlen hl hfind hslide hrm
  refine ⟨b02, rest2, c.num_buckets - 1, hbs2, ?_, by omega, by rw [heq]; rfl⟩
  rw [hb02, hns]
  exact hfind2

/-- Claim C5.  After an admission that triggered a slide completes, the
head bucket's `start_ns` is a multiple of `W`, the ring still holds
exactly `N` buckets, every bucket spans exactly `W`, and adjacent buckets
are contiguous.  Hypotheses are the structural facts every initialized
reachable cache satisfies (contiguous aligned layout, `N` buckets,
positive parameters) plus the slide trigger `idx ≥ N`. -/
theorem slide_preserves_ring_invariants (c : MarketDataCache) (d : MarketDataEntry)
    (c3 : MarketDataCache) (s idx : Nat)
    (hW : 0 < c.bucket_ns)
    (hN : 0 < c.num_buckets)
    (hlen : c.buckets.length = c.num_buckets)
    (hl : layoutb c.bucket_ns s c.buckets = true)
    (halign : s % c.bucket_ns = 0)
    (hfind : find_bucket_index s d.utc_epoch_ns c.bucket_ns = some idx)
    (hslide : c.buckets.length ≤ idx)
    (hins : c.insert d = some c3) :
    c3.buckets.length = c.num_buckets ∧
    (∀ h0 : 0 < c3.buckets.length,
      (c3.buckets.get ⟨0, h0⟩).start_time_ns % c.bucket_ns = 0) ∧
    (∀ i (h : i < c3.buckets.length),
      (c3.buckets.get ⟨i, h⟩).end_time_ns - (c3.buckets.get ⟨i, h⟩).start_time_ns
        = c.bucket_ns) ∧
    (∀ i (h : i + 1 < c3.buckets.length),
      (c3.buckets.get ⟨i, Nat.lt_of_succ_lt h⟩).end_time_ns
        = (c3.buckets.get ⟨i + 1, h⟩).start_time_ns) := by
  cases hrm : MarketDataCache.remove_up_to { c with count := c.count + 1 }
      (s + c.bucket_ns * (idx + 1) - c.num_buckets * c.bucket_ns) with
  | none =>
    rw [insert_slide_none hN hlen hl hfind hslide hrm] at hins
    exact absurd hins (by simp)
  | some p =>
    obtain ⟨c2, r⟩ := p
    obtain ⟨k, hkN, hlay, hlen2, hns, hnum, hfind2⟩ :=
      slide_recompute (c := { c with count := c.count + 1 })
        hW hN hlen hl hfind hslide hrm
    dsimp only [] at hkN hlay hlen2 hns hnum hfind2
    obtain ⟨bkt, hbkt, heq⟩ := insert_slide_eq hW hN hlen hl hfind hslide hrm
    rw [heq] at hins
    have hc3 : c3 = { c2 with
        buckets := c2.buckets.set (c.num_buckets - 1) (bkt.insert d).1 } :=
      (Option.some.inj hins).symm
    subst hc3
    dsimp only []
    have hlt : c.num_buckets - 1 < c2.buckets.length := by omega
    have hbkt2 : bkt = c2.buckets.get ⟨c.num_buckets - 1, hlt⟩ := by
      rw [List.getElem?_eq_getElem hlt] at hbkt
      rw [List.get_eq_getElem]
      exact (Option.some.inj hbkt).symm
    have hifl := bucket_insert_fields bkt d
    have hlay3 : layoutb c.bucket_ns (s + c.bucket_ns * k)
        (c2.buckets.set (c.num_buckets - 1) (bkt.insert d).1) = true := by
      refine layoutb_set hlay hlt ?_ ?_
      · rw [hifl.1, hbkt2]
      · rw [hifl.2, hbkt2]
    have hgetfacts := layoutb_get hlay3
    have hlen4 : (c2.buckets.set (c.num_buckets - 1) (bkt.insert d).1).length
        = c.num_buckets := by
      rw [List.length_set]
      exact hlen2
    refine ⟨hlen4, ?_, ?_, ?_⟩
    · intro h0
      have h1 := (hgetfacts 0 h0).1
      rw [h1]
      simp [Nat.add_mul_mod_self_left, halign]
    · intro i h
      have h1 := (hgetfacts i h).1
      have h2 := (hgetfacts i h).2
      have hm : c.bucket_ns * (i + 1) = c.bucket_ns * i + c.bucket_ns :=
        Nat.mul_succ _ _
      omega
    · intro i h
      have h1 := (hgetfacts i (Nat.lt_of_succ_lt h)).2
      have h2 := (hgetfacts (i + 1) h).1
      rw [h1, h2]

/-- Witness for C5: the concrete slide of `slideCache` under
`(ts = 25, spread = 2)` reaches `slidePost` and satisfies all four ring
invariants. -/
theorem slide_preserves_ring_invariants_witness :
    slideCache.insert ⟨25, 2⟩ = some slidePost ∧
    (slidePost.buckets.length = slideCache.num_buckets ∧
     (∀ h0 : 0 < slidePost.buckets.length,
       (slidePost.buckets.get ⟨0, h0⟩).start_time_ns % slideCache.bucket_ns = 0) ∧
     (∀ i (h : i < slidePost.buckets.length),
       (slidePost.buckets.get ⟨i, h⟩).end_time_ns
         - (slidePost.buckets.get ⟨i, h⟩).start_time_ns = slideCache.bucket_ns) ∧
     (∀ i (h : i + 1 < slidePost.buckets.length),
       (slidePost.buckets.get ⟨i, Nat.lt_of_succ_lt h⟩).end_time_ns
         = (slidePost.buckets.get ⟨i + 1, h⟩).start_time_ns)) :=
  ⟨by decide, slide_preserves_ring_invariants slideCache ⟨25, 2⟩ slidePost 0 2
    (by decide) (by decide) (by decide) (by decide) (by decide) (by decide)
    (by decide) (by decide)⟩

/-- Witness for C6: the slide of `slideCache` triggered by
`(ts = 25, spread = 2)` completes with ring `slideMid`, and the recomputed
index is in range. -/
theorem slide_recomputed_index_safe_witness :
    MarketDataCache.remove_up_to { slideCache with count := slideCache.count + 1 }
        (0 + slideCache.bucket_ns * (2 + 1) - slideCache.num_buckets * slideCache.bucket_ns)
      = some (slideMid, 0) ∧
    (∃ b0 rest idx2, slideMid.buckets = b0 :: rest ∧
      find_bucket_index b0.start_time_ns 25 slideMid.bucket_ns = some idx2 ∧
      idx2 < slideMid.buckets.length ∧
      (slideCache.insert ⟨25, 2⟩).isSome = true) :=
  ⟨by decide, slide_recomputed_index_safe slideCache ⟨25, 2⟩ 0 2 slideMid 0
    (by decide) (by decide) (by decide) (by decide) (by decide) (by decide)
    (by decide)⟩

end MarketData
